import Mathlib

/-!
Verification of the path-resolution core of the repository: the
chroot-safe join `SecureJoinVFS` from `util/join.go`, together with the
lexical path cleaning it relies on (Go's `filepath.Clean`, Unix rules)
and the minimal `VFS` lookup interface (`Lstat`, `Readlink`).

Paths are modelled as `List Char`; the platform separator is `/`.
-/

namespace SecureJoin

/-- Go `filepath.Separator` on Unix. -/
def sep : Char := '/'

/-- The `.` character, used by lexical cleaning. -/
def dot : Char := '.'

/-- Convenience: the characters of a string literal. -/
def pstr (x : String) : List Char := x.data

/-- Split a character list on the separator; the result is the list of
chunks between separators and is never empty (an empty input yields one
empty chunk). -/
def splitOnSep : List Char → List (List Char)
  | [] => [[]]
  | c :: cs =>
    match splitOnSep cs with
    | [] => [[]]
    | h :: t => if c = sep then [] :: h :: t else (c :: h) :: t

/-- Join chunks with the separator (inverse of `splitOnSep` on sep-free
chunks). -/
def joinSep : List (List Char) → List Char
  | [] => []
  | [c] => c
  | c :: c2 :: cs => c ++ sep :: joinSep (c2 :: cs)

/-- One step of Go's `filepath.Clean` element processing, phrased as a
stack machine: empty and `.` components vanish; `..` pops a popable
component, vanishes at the root when `rooted`, and otherwise accumulates;
any other component is pushed. The stack holds components most-recent
first. -/
def cleanPush (rooted : Bool) (stack : List (List Char)) (c : List Char) :
    List (List Char) :=
  if c = [] ∨ c = [dot] then stack
  else if c = [dot, dot] then
    match stack with
    | [] => if rooted then [] else [c]
    | top :: rest => if top = [dot, dot] then c :: top :: rest else rest
  else c :: stack

/-- Go `filepath.IsAbs` on Unix: the path starts with the separator. -/
def isAbs (p : List Char) : Bool := p.head? = some sep

/-- Go's `filepath.Clean` with Unix separators: purely lexical resolution
of `.`, `..`, repeated separators; empty input becomes `.`, a rooted
input stays rooted and `..` cannot climb above the root. -/
def clean (p : List Char) : List Char :=
  if p = [] then [dot]
  else
    let rooted := isAbs p
    let stack := (splitOnSep p).foldl (cleanPush rooted) []
    let body := joinSep stack.reverse
    if rooted then sep :: body
    else if body = [] then [dot]
    else body

/-- The portion of a path before its first separator (the whole path when
there is none); models the component split done with `strings.IndexRune`
in `SecureJoinVFS`. -/
def takeUntilSep : List Char → List Char
  | [] => []
  | c :: cs => if c = sep then [] else c :: takeUntilSep cs

/-- The portion of a path strictly after its first separator (empty when
there is none); the other half of the component split. -/
def dropThroughSep : List Char → List Char
  | [] => []
  | c :: cs => if c = sep then cs else dropThroughSep cs

theorem dropThroughSep_length_le (s : List Char) :
    (dropThroughSep s).length ≤ s.length := by
  induction s with
  | nil => simp [dropThroughSep]
  | cons c cs ih =>
    simp only [dropThroughSep]
    split
    · simp
    · exact le_trans ih (Nat.le_succ _)

theorem dropThroughSep_length_lt (s : List Char) (h : s ≠ []) :
    (dropThroughSep s).length < s.length := by
  cases s with
  | nil => exact absurd rfl h
  | cons c cs =>
    simp only [dropThroughSep]
    split
    · simp
    · exact Nat.lt_succ_of_le (dropThroughSep_length_le cs)

-- Sanity checks of `clean` against documented `filepath.Clean` vectors.
example : clean (pstr "") = pstr "." := by decide
example : clean (pstr "abc") = pstr "abc" := by decide
example : clean (pstr "a/b/../c") = pstr "a/c" := by decide
example : clean (pstr "/..") = pstr "/" := by decide
example : clean (pstr "a/..") = pstr "." := by decide
example : clean (pstr "../../a") = pstr "../../a" := by decide
example : clean (pstr "/a/b/./c/") = pstr "/a/b/c" := by decide
example : clean (pstr "//a") = pstr "/a" := by decide
example : clean (pstr "a//b") = pstr "a/b" := by decide
example : clean (pstr "..") = pstr ".." := by decide
example : clean (pstr "/") = pstr "/" := by decide
example : clean (pstr ".") = pstr "." := by decide
example : clean (pstr "./a") = pstr "a" := by decide
example : clean (pstr "a/.") = pstr "a" := by decide
example : clean (pstr "/../a") = pstr "/a" := by decide
example : clean (pstr "a/b/../../../c") = pstr "../c" := by decide
example : clean (pstr "/r/../../x") = pstr "/x" := by decide

/-- Description of one filesystem entry as far as `SecureJoinVFS` consults
it: `os.FileInfo` restricted to `Mode()&os.ModeSymlink` and `IsDir()`. -/
structure FileInfo where
  isSymlink : Bool
  isDir : Bool
deriving DecidableEq, Repr

/-- Errors flowing through the resolver. `notExist` stands for the whole
class recognised by `IsNotExist` in `util/join.go` (`os.ErrNotExist`,
`syscall.ENOTDIR`, `syscall.ENOENT`); `otherErr` is any other error a
lookup may surface (permission, I/O, ...); `eloop` is the
`os.PathError{Op: "SecureJoin", Path: root + "/" + unsafePath,
Err: syscall.ELOOP}` value built by `SecureJoinVFS` itself, carrying its
`Path` field. Numeric tags keep distinct error values distinct. -/
inductive GoError where
  | notExist : Nat → GoError
  | otherErr : Nat → GoError
  | eloop : List Char → GoError
deriving DecidableEq, Repr

/-- Go `util.IsNotExist`: recognises the "not found" error class. -/
def IsNotExist : GoError → Bool
  | .notExist _ => true
  | _ => false

instance exceptDecEq {ε α : Type} [DecidableEq ε] [DecidableEq α] :
    DecidableEq (Except ε α) := fun x y =>
  match x, y with
  | .ok a, .ok b =>
    if h : a = b then .isTrue (by rw [h])
    else .isFalse (by intro hc; cases hc; exact h rfl)
  | .ok _, .error _ => .isFalse (by intro hc; cases hc)
  | .error _, .ok _ => .isFalse (by intro hc; cases hc)
  | .error e, .error f =>
    if h : e = f then .isTrue (by rw [h])
    else .isFalse (by intro hc; cases hc; exact h rfl)

/-- The minimal lookup interface `SecureJoinVFS` consumes: `Lstat`
describes an entry without following a trailing symlink, `Readlink`
reads a symlink's stored target. -/
structure VFS where
  lstat : List Char → Except GoError FileInfo
  readlink : List Char → Except GoError (List Char)

/-- The component-consumption loop of `SecureJoinVFS` (`util/join.go`):
`path` is the accumulated safe prefix (`bytes.Buffer path`), `up` the
unconsumed remainder of `unsafePath`, `n` the symlink dereference
counter. Each iteration splits the next component `p` off `up`, forms
the scoped candidate `cleanP = Clean("/" + path + p)`, resets on a
collapse to the root, otherwise Lstats `Clean(root + cleanP)`:
not-found or non-symlink entries are appended to `path`; a symlink is
dereferenced (incrementing `n`), an absolute target resets `path` and
may short-circuit when the entry is a non-directory and the raw target
starts with `root + "/"`, and the target is prepended to `up`. -/
def secureJoinLoop (vfs : VFS) (root : List Char) :
    List Char → List Char → Nat → Except GoError (List Char)
  | path, up, n =>
    if hup : up = [] then
      .ok (clean (root ++ clean (sep :: path)))
    else if 255 < n then
      .error (.eloop (root ++ sep :: up))
    else
      if clean (sep :: (path ++ takeUntilSep up)) = [sep] then
        secureJoinLoop vfs root [] (dropThroughSep up) n
      else
        match vfs.lstat (clean (root ++ clean (sep :: (path ++ takeUntilSep up)))) with
        | .error e =>
          if IsNotExist e then
            secureJoinLoop vfs root (path ++ takeUntilSep up ++ [sep]) (dropThroughSep up) n
          else .error e
        | .ok fi =>
          if fi.isSymlink = false then
            secureJoinLoop vfs root (path ++ takeUntilSep up ++ [sep]) (dropThroughSep up) n
          else
            match vfs.readlink (clean (root ++ clean (sep :: (path ++ takeUntilSep up)))) with
            | .error e => .error e
            | .ok dest =>
              if isAbs dest then
                if !fi.isDir && (root ++ [sep]).isPrefixOf dest then
                  .ok (clean dest)
                else
                  secureJoinLoop vfs root [] (dest ++ sep :: dropThroughSep up) (n + 1)
              else
                secureJoinLoop vfs root path (dest ++ sep :: dropThroughSep up) (n + 1)
termination_by path up n => (256 - n, up.length)
decreasing_by
  all_goals simp_wf
  all_goals first
  | exact Prod.Lex.right _ (dropThroughSep_length_lt _ hup)
  | exact Prod.Lex.left _ _ (by omega)

/-- Go `util.SecureJoinVFS(root, unsafePath, vfs)` with an explicit (non
nil) VFS: run the loop from an empty accumulated prefix and a zero
dereference counter. -/
def SecureJoinVFS (root unsafePath : List Char) (vfs : VFS) :
    Except GoError (List Char) :=
  secureJoinLoop vfs root [] unsafePath 0

/-- Fuel-indexed rendering of `secureJoinLoop`, structurally recursive on
the fuel; `none` means the fuel ran out before the loop finished. It is
used both to evaluate the resolver on concrete inputs and to state that
the loop terminates (claim about bounded total work). -/
def secureJoinFuel (vfs : VFS) (root : List Char) :
    Nat → List Char → List Char → Nat → Option (Except GoError (List Char))
  | 0, _, _, _ => none
  | fuel + 1, path, up, n =>
    if up = [] then
      some (.ok (clean (root ++ clean (sep :: path))))
    else if 255 < n then
      some (.error (.eloop (root ++ sep :: up)))
    else
      if clean (sep :: (path ++ takeUntilSep up)) = [sep] then
        secureJoinFuel vfs root fuel [] (dropThroughSep up) n
      else
        match vfs.lstat (clean (root ++ clean (sep :: (path ++ takeUntilSep up)))) with
        | .error e =>
          if IsNotExist e then
            secureJoinFuel vfs root fuel (path ++ takeUntilSep up ++ [sep]) (dropThroughSep up) n
          else some (.error e)
        | .ok fi =>
          if fi.isSymlink = false then
            secureJoinFuel vfs root fuel (path ++ takeUntilSep up ++ [sep]) (dropThroughSep up) n
          else
            match vfs.readlink (clean (root ++ clean (sep :: (path ++ takeUntilSep up)))) with
            | .error e => some (.error e)
            | .ok dest =>
              if isAbs dest then
                if !fi.isDir && (root ++ [sep]).isPrefixOf dest then
                  some (.ok (clean dest))
                else
                  secureJoinFuel vfs root fuel [] (dest ++ sep :: dropThroughSep up) (n + 1)
              else
                secureJoinFuel vfs root fuel path (dest ++ sep :: dropThroughSep up) (n + 1)

/-- Whenever the fuelled loop completes, it agrees with `secureJoinLoop`. -/
theorem secureJoinFuel_sound (vfs : VFS) (root : List Char) :
    ∀ (fuel : Nat) (path up : List Char) (n : Nat) (r : Except GoError (List Char)),
      secureJoinFuel vfs root fuel path up n = some r →
      secureJoinLoop vfs root path up n = r := by
  intro fuel
  induction fuel with
  | zero => intro path up n r h; simp [secureJoinFuel] at h
  | succ fuel ih =>
    intro path up n r h
    rw [secureJoinLoop]
    rw [secureJoinFuel] at h
    by_cases hup : up = []
    · simp only [hup, if_true] at h ⊢
      exact (Option.some_inj.mp h).symm ▸ rfl
    · simp only [hup, if_false, if_neg hup] at h ⊢
      by_cases hn : 255 < n
      · simp only [hn, if_true] at h ⊢
        exact (Option.some_inj.mp h).symm ▸ rfl
      · simp only [hn, if_false] at h ⊢
        by_cases hc : clean (sep :: (path ++ takeUntilSep up)) = [sep]
        · simp only [hc, if_true] at h ⊢
          exact ih _ _ _ _ h
        · simp only [hc, if_false] at h ⊢
          cases hstat : vfs.lstat (clean (root ++ clean (sep :: (path ++ takeUntilSep up)))) with
          | error e =>
            simp only [hstat] at h ⊢
            by_cases hne : IsNotExist e
            · simp only [hne, if_true] at h ⊢
              exact ih _ _ _ _ h
            · simp only [hne, if_false] at h ⊢
              exact (Option.some_inj.mp h).symm ▸ rfl
          | ok fi =>
            simp only [hstat] at h ⊢
            by_cases hsym : fi.isSymlink = false
            · simp only [hsym, if_true] at h ⊢
              exact ih _ _ _ _ h
            · simp only [hsym, if_false] at h ⊢
              cases hread : vfs.readlink (clean (root ++ clean (sep :: (path ++ takeUntilSep up)))) with
              | error e =>
                simp only [hread] at h ⊢
                exact (Option.some_inj.mp h).symm ▸ rfl
              | ok dest =>
                simp only [hread] at h ⊢
                by_cases habs : isAbs dest
                · simp only [habs, if_true] at h ⊢
                  by_cases hsc : (!fi.isDir && (root ++ [sep]).isPrefixOf dest) = true
                  · simp only [hsc, if_true] at h ⊢
                    exact (Option.some_inj.mp h).symm ▸ rfl
                  · simp only [hsc, if_false] at h ⊢
                    exact ih _ _ _ _ h
                · simp only [habs, if_false] at h ⊢
                  exact ih _ _ _ _ h

/-- A well-formed path component as produced by cleaning: non-empty, not
`.`, not `..`, free of separators. -/
def Good (c : List Char) : Prop :=
  c ≠ [] ∧ c ≠ [dot] ∧ c ≠ [dot, dot] ∧ sep ∉ c

/-- All components of the list are well-formed. -/
def GoodL (S : List (List Char)) : Prop := ∀ c ∈ S, Good c

theorem splitOnSep_ne_nil (l : List Char) : splitOnSep l ≠ [] := by
  cases l with
  | nil => simp [splitOnSep]
  | cons c cs =>
    simp only [splitOnSep]
    split
    · simp
    · split <;> simp

theorem splitOnSep_append_sep (x y : List Char) :
    splitOnSep (x ++ sep :: y) = splitOnSep x ++ splitOnSep y := by
  induction x with
  | nil =>
    simp only [List.nil_append, splitOnSep]
    cases h : splitOnSep y with
    | nil => exact absurd h (splitOnSep_ne_nil y)
    | cons h0 t => simp
  | cons c cs ih =>
    simp only [List.cons_append, splitOnSep]
    rw [show cs.append (sep :: y) = cs ++ sep :: y from rfl, ih]
    cases h : splitOnSep cs with
    | nil => exact absurd h (splitOnSep_ne_nil cs)
    | cons h0 t =>
      simp only [List.cons_append]
      by_cases hc : c = sep <;> simp [hc]

theorem sep_not_mem_splitOnSep (l : List Char) :
    ∀ c ∈ splitOnSep l, sep ∉ c := by
  induction l with
  | nil => simp [splitOnSep]
  | cons a as ih =>
    simp only [splitOnSep]
    cases h : splitOnSep as with
    | nil => exact absurd h (splitOnSep_ne_nil as)
    | cons h0 t =>
      have ih0 : sep ∉ h0 := ih h0 (h ▸ List.mem_cons_self h0 t)
      have iht : ∀ c ∈ t, sep ∉ c := fun c hc => ih c (h ▸ List.mem_cons_of_mem h0 hc)
      show ∀ c ∈ (if a = sep then [] :: h0 :: t else (a :: h0) :: t), sep ∉ c
      by_cases ha : a = sep
      · rw [if_pos ha]
        intro c hc
        rcases List.mem_cons.mp hc with rfl | hc2
        · exact List.not_mem_nil sep
        · rcases List.mem_cons.mp hc2 with rfl | hc3
          · exact ih0
          · exact iht c hc3
      · rw [if_neg ha]
        intro c hc
        rcases List.mem_cons.mp hc with rfl | hc2
        · intro hm
          rcases List.mem_cons.mp hm with he | hm2
          · exact ha he.symm
          · exact ih0 hm2
        · exact iht c hc2

theorem splitOnSep_sepFree (l : List Char) (h : sep ∉ l) : splitOnSep l = [l] := by
  induction l with
  | nil => simp [splitOnSep]
  | cons c cs ih =>
    simp only [splitOnSep]
    have hcs : sep ∉ cs := fun hm => h (List.mem_cons_of_mem c hm)
    rw [ih hcs]
    have hc : c ≠ sep := fun hc => h (hc ▸ List.mem_cons_self c cs)
    simp [hc]

theorem joinSep_append (S T : List (List Char)) (hS : S ≠ []) (hT : T ≠ []) :
    joinSep (S ++ T) = joinSep S ++ sep :: joinSep T := by
  induction S with
  | nil => exact absurd rfl hS
  | cons c cs ih =>
    cases cs with
    | nil =>
      cases T with
      | nil => exact absurd rfl hT
      | cons t ts => simp [joinSep]
    | cons c2 cs2 =>
      have hstep := ih (by simp)
      simp only [List.cons_append] at hstep ⊢
      simp only [joinSep]
      rw [hstep]
      simp

theorem splitOnSep_joinSep (S : List (List Char)) (hS : S ≠ [])
    (hfree : ∀ c ∈ S, sep ∉ c) : splitOnSep (joinSep S) = S := by
  induction S with
  | nil => exact absurd rfl hS
  | cons c cs ih =>
    cases cs with
    | nil => simp [joinSep, splitOnSep_sepFree c (hfree c (by simp))]
    | cons c2 cs2 =>
      have hj : joinSep (c :: c2 :: cs2) = c ++ sep :: joinSep (c2 :: cs2) := by
        simp [joinSep]
      rw [hj, splitOnSep_append_sep, splitOnSep_sepFree c (hfree c (by simp)),
        ih (by simp) (fun d hd => hfree d (List.mem_cons_of_mem c hd))]
      simp

variable (vfs : VFS) (root path up : List Char) (n : Nat)

theorem cleanPush_empty (r : Bool) (st : List (List Char)) : cleanPush r st [] = st := by
  simp [cleanPush]

theorem cleanPush_goodArg (r : Bool) (st : List (List Char)) (c : List Char)
    (hc : Good c) : cleanPush r st c = c :: st := by
  obtain ⟨h1, h2, h3, _⟩ := hc
  simp [cleanPush, h1, h2, h3]

theorem foldl_cleanPush_goodL (r : Bool) (G : List (List Char)) (hG : GoodL G) :
    ∀ st, List.foldl (cleanPush r) st G = G.reverse ++ st := by
  induction G with
  | nil => intro st; simp
  | cons c cs ih =>
    intro st
    have hc : Good c := hG c (List.mem_cons_self c cs)
    have hcs : GoodL cs := fun d hd => hG d (List.mem_cons_of_mem c hd)
    simp only [List.foldl_cons, cleanPush_goodArg r st c hc, ih hcs, List.reverse_cons]
    simp

theorem cleanPush_true_goodL (st : List (List Char)) (c : List Char)
    (hst : GoodL st) (hc : sep ∉ c) : GoodL (cleanPush true st c) := by
  unfold cleanPush
  by_cases h1 : c = [] ∨ c = [dot]
  · rw [if_pos h1]; exact hst
  · rw [if_neg h1]
    by_cases h2 : c = [dot, dot]
    · rw [if_pos h2]
      cases st with
      | nil => intro d hd; simp at hd
      | cons top rest =>
        have htop : top ≠ [dot, dot] := (hst top (List.mem_cons_self top rest)).2.2.1
        show GoodL (if top = [dot, dot] then c :: top :: rest else rest)
        rw [if_neg htop]
        exact fun d hd => hst d (List.mem_cons_of_mem top hd)
    · rw [if_neg h2]
      intro d hd
      rcases List.mem_cons.mp hd with rfl | hd2
      · exact ⟨fun h => h1 (Or.inl h), fun h => h1 (Or.inr h), h2, hc⟩
      · exact hst d hd2

theorem foldl_cleanPush_true_goodL (L : List (List Char)) (hL : ∀ c ∈ L, sep ∉ c) :
    ∀ st, GoodL st → GoodL (List.foldl (cleanPush true) st L) := by
  induction L with
  | nil => intro st hst; simpa using hst
  | cons c cs ih =>
    intro st hst
    simp only [List.foldl_cons]
    exact ih (fun d hd => hL d (List.mem_cons_of_mem c hd)) _
      (cleanPush_true_goodL st c hst (hL c (List.mem_cons_self c cs)))

/-- The cleaned component stack of an absolute path `"/" ++ r`, in path
order. -/
def absComps (r : List Char) : List (List Char) :=
  ((splitOnSep r).foldl (cleanPush true) []).reverse

theorem absComps_goodL (r : List Char) : GoodL (absComps r) := by
  unfold absComps
  intro c hc
  exact foldl_cleanPush_true_goodL (splitOnSep r) (sep_not_mem_splitOnSep r) []
    (fun d hd => absurd hd (List.not_mem_nil d)) c (List.mem_reverse.mp hc)

theorem clean_abs (r : List Char) : clean (sep :: r) = sep :: joinSep (absComps r) := by
  unfold clean absComps
  rw [if_neg (by simp)]
  have h1 : isAbs (sep :: r) = true := by simp [isAbs]
  have h2 : splitOnSep (sep :: r) = [] :: splitOnSep r := by
    simp only [splitOnSep]
    cases h : splitOnSep r with
    | nil => exact absurd h (splitOnSep_ne_nil r)
    | cons h0 t => simp
  rw [h1, h2]
  simp only [List.foldl_cons, cleanPush_empty]
  simp

theorem joinSep_eq_nil_goodL (S : List (List Char)) (hS : GoodL S)
    (h : joinSep S = []) : S = [] := by
  cases S with
  | nil => rfl
  | cons c cs =>
    cases cs with
    | nil =>
      exact absurd h (by simpa [joinSep] using (hS c (List.mem_cons_self c [])).1)
    | cons c2 cs2 =>
      simp only [joinSep] at h
      rcases List.append_eq_nil.mp h with ⟨_, h2⟩
      exact absurd h2 (by simp)

theorem clean_abs_of_goodL (S : List (List Char)) (hS : GoodL S) :
    clean (sep :: joinSep S) = sep :: joinSep S := by
  rw [clean_abs]
  cases hSnil : S with
  | nil => simp [absComps, joinSep, splitOnSep, cleanPush]
  | cons c cs =>
    rw [← hSnil]
    unfold absComps
    rw [splitOnSep_joinSep S (by rw [hSnil]; simp) (fun c hc => (hS c hc).2.2.2),
      foldl_cleanPush_goodL true S hS []]
    simp

theorem clean_abs_append (S T : List (List Char)) (hS : GoodL S) (hT : GoodL T) :
    clean ((sep :: joinSep S) ++ (sep :: joinSep T)) = sep :: joinSep (S ++ T) := by
  have hST : GoodL (S ++ T) := by
    intro c hc
    rcases List.mem_append.mp hc with h | h
    · exact hS c h
    · exact hT c h
  rw [show (sep :: joinSep S) ++ (sep :: joinSep T) = sep :: (joinSep S ++ sep :: joinSep T)
      from rfl, clean_abs]
  unfold absComps
  rw [splitOnSep_append_sep]
  cases hSnil : S with
  | nil =>
    rw [show splitOnSep (joinSep ([] : List (List Char))) = [[]] from rfl]
    cases hTnil : T with
    | nil => rfl
    | cons t ts =>
      rw [← hTnil, splitOnSep_joinSep T (by rw [hTnil]; simp) (fun c hc => (hT c hc).2.2.2),
        show ([[]] ++ T : List (List Char)) = [] :: T from rfl, List.foldl_cons,
        cleanPush_empty, foldl_cleanPush_goodL true T hT []]
      simp
  | cons s ss =>
    rw [← hSnil,
      splitOnSep_joinSep S (by rw [hSnil]; simp) (fun c hc => (hS c hc).2.2.2)]
    cases hTnil : T with
    | nil =>
      rw [show splitOnSep (joinSep ([] : List (List Char))) = [[]] from rfl,
        List.foldl_append, show ∀ st, List.foldl (cleanPush true) st [[]] =
          cleanPush true st [] from fun st => rfl,
        cleanPush_empty, foldl_cleanPush_goodL true S hS []]
      simp
    | cons t ts =>
      rw [← hTnil, splitOnSep_joinSep T (by rw [hTnil]; simp) (fun c hc => (hT c hc).2.2.2),
        foldl_cleanPush_goodL true (S ++ T) hST []]
      simp

theorem clean_abs_collapse (x y : List Char) (h : clean (sep :: x) = [sep]) :
    clean (sep :: (x ++ sep :: y)) = clean (sep :: y) := by
  rw [clean_abs] at h
  have hst : absComps x = [] :=
    joinSep_eq_nil_goodL _ (absComps_goodL x) (by simpa using h)
  have hfold : (splitOnSep x).foldl (cleanPush true) [] = [] := by
    have := congrArg List.reverse hst
    simpa [absComps] using this
  rw [clean_abs, clean_abs]
  unfold absComps
  rw [splitOnSep_append_sep, List.foldl_append, hfold]

theorem clean_append_sep (x : List Char) (hx : x ≠ []) :
    clean (x ++ [sep]) = clean x := by
  unfold clean
  rw [if_neg (by simp), if_neg hx]
  have h1 : isAbs (x ++ [sep]) = isAbs x := by
    cases x with
    | nil => exact absurd rfl hx
    | cons c cs => simp [isAbs]
  have h2 : splitOnSep (x ++ [sep]) = splitOnSep x ++ [[]] := by
    have := splitOnSep_append_sep x []
    simpa [splitOnSep] using this
  rw [h1, h2]
  simp only [List.foldl_append, List.foldl_cons, List.foldl_nil, cleanPush_empty]

theorem absComps_append_goodL (r : List Char) (T : List (List Char)) (hT : GoodL T) :
    absComps (r ++ sep :: joinSep T) = absComps r ++ T := by
  unfold absComps
  rw [splitOnSep_append_sep]
  cases hTnil : T with
  | nil =>
    rw [show splitOnSep (joinSep ([] : List (List Char))) = [[]] from rfl,
      List.foldl_append,
      show ∀ st, List.foldl (cleanPush true) st [[]] = cleanPush true st [] from
        fun st => rfl,
      cleanPush_empty]
    simp
  | cons t ts =>
    rw [← hTnil, splitOnSep_joinSep T (by rw [hTnil]; simp) (fun c hc => (hT c hc).2.2.2),
      List.foldl_append, foldl_cleanPush_goodL true T hT]
    simp

theorem joinSep_prefix (S T : List (List Char)) : joinSep S <+: joinSep (S ++ T) := by
  cases T with
  | nil => rw [List.append_nil]
  | cons t ts =>
    cases S with
    | nil => exact List.nil_prefix
    | cons s ss =>
      rw [joinSep_append (s :: ss) (t :: ts) (by simp) (by simp)]
      exact List.prefix_append _ _

theorem cleanRoot_prefix_clean_append (root x : List Char)
    (habs : isAbs root = true) :
    (clean root).isPrefixOf (clean (root ++ clean (sep :: x))) = true := by
  cases root with
  | nil => simp [isAbs] at habs
  | cons c r =>
    have hc : c = sep := by simpa [isAbs] using habs
    subst hc
    rw [clean_abs r, clean_abs x,
      show (sep :: r) ++ (sep :: joinSep (absComps x)) =
        sep :: (r ++ sep :: joinSep (absComps x)) from rfl,
      clean_abs, absComps_append_goodL r (absComps x) (absComps_goodL x)]
    exact List.isPrefixOf_iff_prefix.mpr
      (List.cons_prefix_cons.mpr ⟨rfl, joinSep_prefix _ _⟩)

theorem clean_ne_nil (p : List Char) : clean p ≠ [] := by
  unfold clean
  by_cases hp : p = []
  · simp [hp]
  · rw [if_neg hp]
    by_cases hr : isAbs p
    · simp [hr]
    · simp only [Bool.not_eq_true] at hr
      simp only [hr, Bool.false_eq_true, if_false]
      split <;> simp_all

/-- Structure of the stack built by unrooted cleaning: recently pushed
well-formed components atop an all-`..` tail. -/
def UStack (st : List (List Char)) : Prop :=
  ∃ names dds, st = names ++ dds ∧ GoodL names ∧ ∀ d ∈ dds, d = [dot, dot]

theorem cleanPush_false_ustack (st : List (List Char)) (c : List Char)
    (hst : UStack st) (hc : sep ∉ c) : UStack (cleanPush false st c) := by
  obtain ⟨names, dds, rfl, hnames, hdds⟩ := hst
  unfold cleanPush
  by_cases h1 : c = [] ∨ c = [dot]
  · rw [if_pos h1]; exact ⟨names, dds, rfl, hnames, hdds⟩
  · rw [if_neg h1]
    by_cases h2 : c = [dot, dot]
    · rw [if_pos h2]
      cases names with
      | nil =>
        cases dds with
        | nil =>
          exact ⟨[], [c], by simp, by intro d hd2; simp at hd2,
            by intro d hd2; simp at hd2; simp [hd2, h2]⟩
        | cons d0 ds =>
          have hd0 : d0 = [dot, dot] := hdds d0 (List.mem_cons_self d0 ds)
          show UStack (if d0 = [dot, dot] then c :: d0 :: ds else ds)
          rw [if_pos hd0]
          exact ⟨[], c :: d0 :: ds, by simp, by intro d hd2; simp at hd2,
            by intro d hd2
               rcases List.mem_cons.mp hd2 with rfl | hd3
               · exact h2
               · exact hdds d hd3⟩
      | cons n0 ns =>
        have hn0 : n0 ≠ [dot, dot] := (hnames n0 (List.mem_cons_self n0 ns)).2.2.1
        show UStack (if n0 = [dot, dot] then c :: n0 :: (ns ++ dds) else ns ++ dds)
        rw [if_neg hn0]
        exact ⟨ns, dds, rfl, fun d hd2 => hnames d (List.mem_cons_of_mem n0 hd2), hdds⟩
    · rw [if_neg h2]
      refine ⟨c :: names, dds, by simp, ?_, hdds⟩
      intro d hd2
      rcases List.mem_cons.mp hd2 with rfl | hd3
      · exact ⟨fun h => h1 (Or.inl h), fun h => h1 (Or.inr h), h2, hc⟩
      · exact hnames d hd3

theorem foldl_cleanPush_false_ustack (L : List (List Char))
    (hL : ∀ c ∈ L, sep ∉ c) :
    ∀ st, UStack st → UStack (List.foldl (cleanPush false) st L) := by
  induction L with
  | nil => intro st hst; simpa using hst
  | cons c cs ih =>
    intro st hst
    simp only [List.foldl_cons]
    exact ih (fun d hd => hL d (List.mem_cons_of_mem c hd)) _
      (cleanPush_false_ustack st c hst (hL c (List.mem_cons_self c cs)))

theorem foldl_cleanPush_false_dds (dds : List (List Char))
    (hdds : ∀ d ∈ dds, d = [dot, dot]) :
    ∀ st, (∀ d ∈ st, d = [dot, dot]) →
      List.foldl (cleanPush false) st dds = dds.reverse ++ st := by
  induction dds with
  | nil => intro st _; simp
  | cons d ds ih =>
    intro st hst
    have hd : d = [dot, dot] := hdds d (List.mem_cons_self d ds)
    have hstep : cleanPush false st d = d :: st := by
      unfold cleanPush
      rw [if_neg (by simp [hd, dot, sep]), if_pos hd]
      cases hs : st with
      | nil => simp
      | cons top rest =>
        have : top = [dot, dot] := hst top (hs ▸ List.mem_cons_self top rest)
        show (if top = [dot, dot] then d :: top :: rest else rest) = d :: top :: rest
        rw [if_pos this]
    simp only [List.foldl_cons, hstep]
    rw [ih (fun e he => hdds e (List.mem_cons_of_mem d he)) (d :: st)
      (by intro e he; rcases List.mem_cons.mp he with rfl | he2
          · exact hd
          · exact hst e he2)]
    simp

theorem joinSep_head_of_ne_nil (S : List (List Char)) (c0 : List Char)
    (hS : S.head? = some c0) (hne : c0 ≠ []) :
    (joinSep S).head? = c0.head? := by
  cases S with
  | nil => simp at hS
  | cons c cs =>
    have hc : c = c0 := by simpa using hS
    subst hc
    cases cs with
    | nil => rfl
    | cons c2 cs2 =>
      show (c ++ sep :: joinSep (c2 :: cs2)).head? = c.head?
      cases c with
      | nil => exact absurd rfl hne
      | cons a as => rfl

theorem clean_idem (p : List Char) : clean (clean p) = clean p := by
  by_cases hp : p = []
  · rw [hp]; rfl
  · by_cases hr : isAbs p = true
    · obtain ⟨c, cs, rfl⟩ : ∃ c cs, p = c :: cs := by
        cases p with
        | nil => exact absurd rfl hp
        | cons c cs => exact ⟨c, cs, rfl⟩
      have hc : c = sep := by simpa [isAbs] using hr
      subst hc
      rw [clean_abs, clean_abs_of_goodL _ (absComps_goodL cs)]
    · simp only [Bool.not_eq_true] at hr
      have hstack : UStack ((splitOnSep p).foldl (cleanPush false) []) :=
        foldl_cleanPush_false_ustack (splitOnSep p) (sep_not_mem_splitOnSep p) []
          ⟨[], [], rfl, by intro d hd; simp at hd, by intro d hd; simp at hd⟩
      obtain ⟨names, dds, hst, hnames, hdds⟩ := hstack
      have hcleanp : clean p =
          (if joinSep (dds.reverse ++ names.reverse) = [] then [dot]
           else joinSep (dds.reverse ++ names.reverse)) := by
        unfold clean
        rw [if_neg hp, hr]
        simp only [Bool.false_eq_true, if_false]
        rw [hst, List.reverse_append]
      have hcompsfree : ∀ c ∈ dds.reverse ++ names.reverse, sep ∉ c := by
        intro c hcmem
        rcases List.mem_append.mp hcmem with h | h
        · rw [hdds c (List.mem_reverse.mp h)]
          simp [sep, dot]
        · exact (hnames c (List.mem_reverse.mp h)).2.2.2
      by_cases hbody : joinSep (dds.reverse ++ names.reverse) = []
      · rw [hcleanp, if_pos hbody]; rfl
      · rw [hcleanp, if_neg hbody]
        have hcompsne : (dds.reverse ++ names.reverse : List (List Char)) ≠ [] := by
          intro h; exact hbody (by rw [h]; rfl)
        obtain ⟨c0, rest0, hcm⟩ := List.exists_cons_of_ne_nil hcompsne
        have hc0mem : c0 ∈ dds.reverse ++ names.reverse := by
          rw [hcm]; exact List.mem_cons_self c0 rest0
        have hc0sep : sep ∉ c0 := hcompsfree c0 hc0mem
        have hc0ne : c0 ≠ [] := by
          intro h
          rcases List.mem_append.mp hc0mem with hm | hm
          · have := hdds c0 (List.mem_reverse.mp hm)
            rw [h] at this; simp at this
          · exact (hnames c0 (List.mem_reverse.mp hm)).1 h
        have hhead : (joinSep (dds.reverse ++ names.reverse)).head? = c0.head? :=
          joinSep_head_of_ne_nil _ c0 (by rw [hcm]; rfl) hc0ne
        have habs2 : isAbs (joinSep (dds.reverse ++ names.reverse)) = false := by
          unfold isAbs
          rw [hhead]
          cases c0 with
          | nil => exact absurd rfl hc0ne
          | cons a as =>
            have ha : a ≠ sep := fun h => hc0sep (h ▸ List.mem_cons_self a as)
            simp [ha]
        have hfold2 : List.foldl (cleanPush false) [] (dds.reverse ++ names.reverse) =
            names ++ dds := by
          rw [List.foldl_append,
            foldl_cleanPush_false_dds dds.reverse
              (fun d hd => hdds d (List.mem_reverse.mp hd)) []
              (by intro d hd; simp at hd),
            foldl_cleanPush_goodL false names.reverse
              (fun d hd => hnames d (List.mem_reverse.mp hd))]
          simp
        unfold clean
        rw [if_neg hbody, habs2]
        simp only [Bool.false_eq_true, if_false]
        rw [splitOnSep_joinSep _ hcompsne hcompsfree, hfold2, List.reverse_append,
          if_neg hbody]

section StepLemmas

variable (vfs : VFS) (root path up : List Char) (n : Nat)

/-- Loop exit: an empty remainder yields the final double clean. -/
theorem loop_base :
    secureJoinLoop vfs root path [] n = .ok (clean (root ++ clean (sep :: path))) := by
  rw [secureJoinLoop]; simp

/-- Loop overflow: with a non-empty remainder and a counter beyond 255
the loop fails with `ELOOP`, recording `root + "/" + up`. -/
theorem loop_eloop (hup : up ≠ []) (hn : 255 < n) :
    secureJoinLoop vfs root path up n = .error (.eloop (root ++ sep :: up)) := by
  rw [secureJoinLoop]; simp [hup, hn]

/-- Loop reset: when the scoped candidate collapses to the bare root the
accumulated prefix is discarded and the loop continues. -/
theorem loop_reset (hup : up ≠ []) (hn : ¬ 255 < n)
    (hc : clean (sep :: (path ++ takeUntilSep up)) = [sep]) :
    secureJoinLoop vfs root path up n =
      secureJoinLoop vfs root [] (dropThroughSep up) n := by
  rw [secureJoinLoop]; simp [hup, hn, hc]

/-- Loop step on a not-found component: accepted like a non-symlink. -/
theorem loop_notFound (e : GoError) (hup : up ≠ []) (hn : ¬ 255 < n)
    (hc : clean (sep :: (path ++ takeUntilSep up)) ≠ [sep])
    (hstat : vfs.lstat (clean (root ++ clean (sep :: (path ++ takeUntilSep up)))) = .error e)
    (hne : IsNotExist e = true) :
    secureJoinLoop vfs root path up n =
      secureJoinLoop vfs root (path ++ takeUntilSep up ++ [sep]) (dropThroughSep up) n := by
  rw [secureJoinLoop]; simp [hup, hn, hc, hstat, hne]

/-- Loop abort on a lookup failure outside the not-found class: the error
is returned unchanged. -/
theorem loop_lstatErr (e : GoError) (hup : up ≠ []) (hn : ¬ 255 < n)
    (hc : clean (sep :: (path ++ takeUntilSep up)) ≠ [sep])
    (hstat : vfs.lstat (clean (root ++ clean (sep :: (path ++ takeUntilSep up)))) = .error e)
    (hne : IsNotExist e = false) :
    secureJoinLoop vfs root path up n = .error e := by
  rw [secureJoinLoop]; simp [hup, hn, hc, hstat, hne]

/-- Loop step on an existing non-symlink component: accept it. -/
theorem loop_nonSymlink (fi : FileInfo) (hup : up ≠ []) (hn : ¬ 255 < n)
    (hc : clean (sep :: (path ++ takeUntilSep up)) ≠ [sep])
    (hstat : vfs.lstat (clean (root ++ clean (sep :: (path ++ takeUntilSep up)))) = .ok fi)
    (hsym : fi.isSymlink = false) :
    secureJoinLoop vfs root path up n =
      secureJoinLoop vfs root (path ++ takeUntilSep up ++ [sep]) (dropThroughSep up) n := by
  rw [secureJoinLoop]; simp [hup, hn, hc, hstat, hsym]

/-- Loop abort on a failing readlink: the error is returned unchanged. -/
theorem loop_readlinkErr (fi : FileInfo) (e : GoError) (hup : up ≠ []) (hn : ¬ 255 < n)
    (hc : clean (sep :: (path ++ takeUntilSep up)) ≠ [sep])
    (hstat : vfs.lstat (clean (root ++ clean (sep :: (path ++ takeUntilSep up)))) = .ok fi)
    (hsym : fi.isSymlink = true)
    (hread : vfs.readlink (clean (root ++ clean (sep :: (path ++ takeUntilSep up)))) = .error e) :
    secureJoinLoop vfs root path up n = .error e := by
  rw [secureJoinLoop]; simp [hup, hn, hc, hstat, hsym, hread]

/-- Loop step on a symlink with an absolute target: either the
non-directory, root-prefixed short circuit returns the cleaned target as
the final result, or the accumulated prefix is discarded and the target
is prepended to the remainder. -/
theorem loop_symlinkAbs (fi : FileInfo) (dest : List Char) (hup : up ≠ []) (hn : ¬ 255 < n)
    (hc : clean (sep :: (path ++ takeUntilSep up)) ≠ [sep])
    (hstat : vfs.lstat (clean (root ++ clean (sep :: (path ++ takeUntilSep up)))) = .ok fi)
    (hsym : fi.isSymlink = true)
    (hread : vfs.readlink (clean (root ++ clean (sep :: (path ++ takeUntilSep up)))) = .ok dest)
    (habs : isAbs dest = true) :
    secureJoinLoop vfs root path up n =
      if !fi.isDir && (root ++ [sep]).isPrefixOf dest then .ok (clean dest)
      else secureJoinLoop vfs root [] (dest ++ sep :: dropThroughSep up) (n + 1) := by
  rw [secureJoinLoop]; simp [hup, hn, hc, hstat, hsym, hread, habs]

/-- Loop step on a symlink with a relative target: the target is
prepended to the remainder and the accumulated prefix is kept. -/
theorem loop_symlinkRel (fi : FileInfo) (dest : List Char) (hup : up ≠ []) (hn : ¬ 255 < n)
    (hc : clean (sep :: (path ++ takeUntilSep up)) ≠ [sep])
    (hstat : vfs.lstat (clean (root ++ clean (sep :: (path ++ takeUntilSep up)))) = .ok fi)
    (hsym : fi.isSymlink = true)
    (hread : vfs.readlink (clean (root ++ clean (sep :: (path ++ takeUntilSep up)))) = .ok dest)
    (habs : isAbs dest = false) :
    secureJoinLoop vfs root path up n =
      secureJoinLoop vfs root path (dest ++ sep :: dropThroughSep up) (n + 1) := by
  rw [secureJoinLoop]; simp [hup, hn, hc, hstat, hsym, hread, habs]

end StepLemmas

theorem up_split : ∀ (up : List Char), up ≠ [] →
    up = takeUntilSep up ++ sep :: dropThroughSep up ∨
      (dropThroughSep up = [] ∧ up = takeUntilSep up)
  | [], h => absurd rfl h
  | c :: cs, _ => by
    by_cases hc : c = sep
    · left; simp [takeUntilSep, dropThroughSep, hc]
    · cases cs with
      | nil => right; simp [takeUntilSep, dropThroughSep, hc]
      | cons c2 cs2 =>
        rcases up_split (c2 :: cs2) (by simp) with h | ⟨h1, h2⟩
        · left
          simp only [takeUntilSep, dropThroughSep, if_neg hc, List.cons_append]
          exact congrArg (c :: ·) h
        · right
          refine ⟨?_, ?_⟩
          · simpa [dropThroughSep, hc] using h1
          · simp only [takeUntilSep, if_neg hc]
            exact congrArg (c :: ·) h2

/-- Hypothesis of the no-symlink property: the lookup capability reports
every path as either not found or an existing non-symlink. -/
def NoSymlinks (vfs : VFS) : Prop :=
  ∀ q, (∃ fi, vfs.lstat q = .ok fi ∧ fi.isSymlink = false) ∨
       (∃ e, vfs.lstat q = .error e ∧ IsNotExist e = true)

theorem loop_noSymlinks (vfs : VFS) (root : List Char) (hvfs : NoSymlinks vfs) :
    ∀ (path up : List Char) (n : Nat), n ≤ 255 →
      secureJoinLoop vfs root path up n =
        .ok (clean (root ++ clean (sep :: (path ++ up)))) := by
  intro path up n
  induction path, up, n using secureJoinLoop.induct vfs root with
  | case1 path n =>
    intro _
    rw [loop_base]
    simp
  | case2 path up n hup hn =>
    intro hle
    omega
  | case3 path up n hup hn hc ih =>
    intro hle
    rw [loop_reset vfs root path up n hup hn hc, ih hle]
    rcases up_split up hup with h | ⟨h1, h2⟩
    · conv_rhs => rw [h]
      rw [List.nil_append,
        show path ++ (takeUntilSep up ++ sep :: dropThroughSep up) =
          (path ++ takeUntilSep up) ++ sep :: dropThroughSep up by simp,
        clean_abs_collapse _ _ hc]
    · rw [h1, List.nil_append]
      conv_rhs => rw [h2]
      rw [hc]
      rfl
  | case4 path up n hup hn hc e hstat hne ih =>
    intro hle
    rw [loop_notFound vfs root path up n e hup hn hc hstat hne, ih hle]
    rcases up_split up hup with h | ⟨h1, h2⟩
    · conv_rhs => rw [h]
      simp [List.append_assoc]
    · rw [h1, List.append_nil]
      conv_rhs => rw [h2]
      rw [show sep :: (path ++ takeUntilSep up ++ [sep]) =
          (sep :: (path ++ takeUntilSep up)) ++ [sep] by simp,
        clean_append_sep _ (by simp)]
  | case5 path up n hup hn hc e hstat hne =>
    intro hle
    rcases hvfs (clean (root ++ clean (sep :: (path ++ takeUntilSep up)))) with
      ⟨fi, hok, _⟩ | ⟨e2, herr, hne2⟩
    · rw [hstat] at hok; cases hok
    · rw [hstat] at herr
      injection herr with h
      subst h
      exact absurd hne2 hne
  | case6 path up n hup hn hc fi hstat hsym ih =>
    intro hle
    rw [loop_nonSymlink vfs root path up n fi hup hn hc hstat hsym, ih hle]
    rcases up_split up hup with h | ⟨h1, h2⟩
    · conv_rhs => rw [h]
      simp [List.append_assoc]
    · rw [h1, List.append_nil]
      conv_rhs => rw [h2]
      rw [show sep :: (path ++ takeUntilSep up ++ [sep]) =
          (sep :: (path ++ takeUntilSep up)) ++ [sep] by simp,
        clean_append_sep _ (by simp)]
  | case7 path up n hup hn hc fi hstat hsym e hread =>
    intro hle
    rcases hvfs (clean (root ++ clean (sep :: (path ++ takeUntilSep up)))) with
      ⟨fi2, hok, hsym2⟩ | ⟨e2, herr, _⟩
    · rw [hstat] at hok
      injection hok with h
      subst h
      exact absurd hsym2 hsym
    · rw [hstat] at herr; cases herr
  | case8 path up n hup hn hc fi hstat hsym dest hread habs hsc =>
    intro hle
    rcases hvfs (clean (root ++ clean (sep :: (path ++ takeUntilSep up)))) with
      ⟨fi2, hok, hsym2⟩ | ⟨e2, herr, _⟩
    · rw [hstat] at hok
      injection hok with h
      subst h
      exact absurd hsym2 hsym
    · rw [hstat] at herr; cases herr
  | case9 path up n hup hn hc fi hstat hsym dest hread habs hsc ih =>
    intro hle
    rcases hvfs (clean (root ++ clean (sep :: (path ++ takeUntilSep up)))) with
      ⟨fi2, hok, hsym2⟩ | ⟨e2, herr, _⟩
    · rw [hstat] at hok
      injection hok with h
      subst h
      exact absurd hsym2 hsym
    · rw [hstat] at herr; cases herr
  | case10 path up n hup hn hc fi hstat hsym dest hread habs ih =>
    intro hle
    rcases hvfs (clean (root ++ clean (sep :: (path ++ takeUntilSep up)))) with
      ⟨fi2, hok, hsym2⟩ | ⟨e2, herr, _⟩
    · rw [hstat] at hok
      injection hok with h
      subst h
      exact absurd hsym2 hsym
    · rw [hstat] at herr; cases herr

/-- Shape of every successful loop result: either the final double clean
of some accumulated prefix, or the short-circuited cleaned target of an
absolute, root-prefixed symlink. -/
theorem loop_ok_shape (vfs : VFS) (root : List Char) :
    ∀ (path up : List Char) (n : Nat) (res : List Char),
      secureJoinLoop vfs root path up n = .ok res →
      (∃ x, res = clean (root ++ clean (sep :: x))) ∨
      (∃ dest, res = clean dest ∧ (root ++ [sep]).isPrefixOf dest = true) := by
  intro path up n
  induction path, up, n using secureJoinLoop.induct vfs root with
  | case1 path n =>
    intro res h
    rw [loop_base] at h
    injection h with h2
    exact Or.inl ⟨path, h2.symm⟩
  | case2 path up n hup hn =>
    intro res h
    rw [loop_eloop vfs root path up n hup hn] at h
    cases h
  | case3 path up n hup hn hc ih =>
    intro res h
    rw [loop_reset vfs root path up n hup hn hc] at h
    exact ih res h
  | case4 path up n hup hn hc e hstat hne ih =>
    intro res h
    rw [loop_notFound vfs root path up n e hup hn hc hstat hne] at h
    exact ih res h
  | case5 path up n hup hn hc e hstat hne =>
    intro res h
    rw [loop_lstatErr vfs root path up n e hup hn hc hstat
      (by simpa using hne)] at h
    cases h
  | case6 path up n hup hn hc fi hstat hsym ih =>
    intro res h
    rw [loop_nonSymlink vfs root path up n fi hup hn hc hstat hsym] at h
    exact ih res h
  | case7 path up n hup hn hc fi hstat hsym e hread =>
    intro res h
    rw [loop_readlinkErr vfs root path up n fi e hup hn hc hstat
      (by simpa using hsym) hread] at h
    cases h
  | case8 path up n hup hn hc fi hstat hsym dest hread habs hsc =>
    intro res h
    rw [loop_symlinkAbs vfs root path up n fi dest hup hn hc hstat
      (by simpa using hsym) hread habs, if_pos hsc] at h
    injection h with h2
    have hsc2 : (root ++ [sep]).isPrefixOf dest = true := by
      cases hand : (root ++ [sep]).isPrefixOf dest
      · rw [hand, Bool.and_false] at hsc; cases hsc
      · rfl
    exact Or.inr ⟨dest, h2.symm, hsc2⟩
  | case9 path up n hup hn hc fi hstat hsym dest hread habs hsc ih =>
    intro res h
    rw [loop_symlinkAbs vfs root path up n fi dest hup hn hc hstat
      (by simpa using hsym) hread habs, if_neg hsc] at h
    exact ih res h
  | case10 path up n hup hn hc fi hstat hsym dest hread habs ih =>
    intro res h
    rw [loop_symlinkRel vfs root path up n fi dest hup hn hc hstat
      (by simpa using hsym) hread (by simpa using habs)] at h
    exact ih res h

/-- The fuelled loop completes on every input when given enough fuel, and
then returns the total loop's result: the resolver terminates. -/
theorem loop_fuel_complete (vfs : VFS) (root : List Char) :
    ∀ (path up : List Char) (n : Nat),
      ∃ fuel, secureJoinFuel vfs root fuel path up n =
        some (secureJoinLoop vfs root path up n) := by
  intro path up n
  induction path, up, n using secureJoinLoop.induct vfs root with
  | case1 path n =>
    exact ⟨1, by rw [secureJoinFuel, loop_base]; simp⟩
  | case2 path up n hup hn =>
    exact ⟨1, by rw [secureJoinFuel, loop_eloop vfs root path up n hup hn]; simp [hup, hn]⟩
  | case3 path up n hup hn hc ih =>
    obtain ⟨fuel, hf⟩ := ih
    exact ⟨fuel + 1, by
      rw [secureJoinFuel, loop_reset vfs root path up n hup hn hc]
      simp only [hup, hn, hc, if_true, if_false, ite_false, ite_true]
      exact hf⟩
  | case4 path up n hup hn hc e hstat hne ih =>
    obtain ⟨fuel, hf⟩ := ih
    exact ⟨fuel + 1, by
      rw [secureJoinFuel, loop_notFound vfs root path up n e hup hn hc hstat hne]
      simp only [hup, hn, hc, hstat, hne, if_true, if_false, ite_false, ite_true]
      exact hf⟩
  | case5 path up n hup hn hc e hstat hne =>
    exact ⟨1, by
      rw [secureJoinFuel, loop_lstatErr vfs root path up n e hup hn hc hstat
        (by simpa using hne)]
      simp [hup, hn, hc, hstat, show IsNotExist e = false by simpa using hne]⟩
  | case6 path up n hup hn hc fi hstat hsym ih =>
    obtain ⟨fuel, hf⟩ := ih
    exact ⟨fuel + 1, by
      rw [secureJoinFuel, loop_nonSymlink vfs root path up n fi hup hn hc hstat hsym]
      simp only [hup, hn, hc, hstat, hsym, if_true, if_false, ite_false, ite_true]
      exact hf⟩
  | case7 path up n hup hn hc fi hstat hsym e hread =>
    exact ⟨1, by
      rw [secureJoinFuel, loop_readlinkErr vfs root path up n fi e hup hn hc hstat
        (by simpa using hsym) hread]
      simp [hup, hn, hc, hstat, hsym, hread]⟩
  | case8 path up n hup hn hc fi hstat hsym dest hread habs hsc =>
    exact ⟨1, by
      rw [secureJoinFuel, loop_symlinkAbs vfs root path up n fi dest hup hn hc hstat
        (by simpa using hsym) hread habs, if_pos hsc]
      simp [hup, hn, hc, hstat, hsym, hread, habs, hsc]⟩
  | case9 path up n hup hn hc fi hstat hsym dest hread habs hsc ih =>
    obtain ⟨fuel, hf⟩ := ih
    exact ⟨fuel + 1, by
      rw [secureJoinFuel, loop_symlinkAbs vfs root path up n fi dest hup hn hc hstat
        (by simpa using hsym) hread habs, if_neg hsc]
      simp only [hup, hn, hc, hstat, hsym, hread, habs, hsc,
        if_true, if_false, ite_false, ite_true]
      exact hf⟩
  | case10 path up n hup hn hc fi hstat hsym dest hread habs ih =>
    obtain ⟨fuel, hf⟩ := ih
    exact ⟨fuel + 1, by
      rw [secureJoinFuel, loop_symlinkRel vfs root path up n fi dest hup hn hc hstat
        (by simpa using hsym) hread (by simpa using habs)]
      simp only [hup, hn, hc, hstat, hsym, hread, habs,
        if_true, if_false, ite_false, ite_true]
      exact hf⟩

/-- Variant of the resolution loop with the `IsDir` conjunct of the
absolute-symlink short circuit removed: the short circuit fires whenever
the raw absolute target starts with `root + "/"`, regardless of whether
the symlink entry is a directory. Otherwise identical to
`secureJoinLoop`. -/
def secureJoinLoopND (vfs : VFS) (root : List Char) :
    List Char → List Char → Nat → Except GoError (List Char)
  | path, up, n =>
    if hup : up = [] then
      .ok (clean (root ++ clean (sep :: path)))
    else if 255 < n then
      .error (.eloop (root ++ sep :: up))
    else
      if clean (sep :: (path ++ takeUntilSep up)) = [sep] then
        secureJoinLoopND vfs root [] (dropThroughSep up) n
      else
        match vfs.lstat (clean (root ++ clean (sep :: (path ++ takeUntilSep up)))) with
        | .error e =>
          if IsNotExist e then
            secureJoinLoopND vfs root (path ++ takeUntilSep up ++ [sep]) (dropThroughSep up) n
          else .error e
        | .ok fi =>
          if fi.isSymlink = false then
            secureJoinLoopND vfs root (path ++ takeUntilSep up ++ [sep]) (dropThroughSep up) n
          else
            match vfs.readlink (clean (root ++ clean (sep :: (path ++ takeUntilSep up)))) with
            | .error e => .error e
            | .ok dest =>
              if isAbs dest then
                if (root ++ [sep]).isPrefixOf dest then
                  .ok (clean dest)
                else
                  secureJoinLoopND vfs root [] (dest ++ sep :: dropThroughSep up) (n + 1)
              else
                secureJoinLoopND vfs root path (dest ++ sep :: dropThroughSep up) (n + 1)
termination_by path up n => (256 - n, up.length)
decreasing_by
  all_goals simp_wf
  all_goals first
  | exact Prod.Lex.right _ (dropThroughSep_length_lt _ hup)
  | exact Prod.Lex.left _ _ (by omega)

/-- The `SecureJoinVFS` variant built on the loop without the `IsDir`
check. -/
def SecureJoinVFSNoDirCheck (root unsafePath : List Char) (vfs : VFS) :
    Except GoError (List Char) :=
  secureJoinLoopND vfs root [] unsafePath 0

/-- When no existing entry is simultaneously a symlink and a directory,
the `IsDir` conjunct of the short circuit is redundant: the two loops
agree everywhere. -/
theorem loopND_eq_loop (vfs : VFS) (root : List Char)
    (hvfs : ∀ q fi, vfs.lstat q = .ok fi → fi.isSymlink = true → fi.isDir = false) :
    ∀ (path up : List Char) (n : Nat),
      secureJoinLoopND vfs root path up n = secureJoinLoop vfs root path up n := by
  intro path up n
  induction path, up, n using secureJoinLoop.induct vfs root with
  | case1 path n => rw [secureJoinLoopND, loop_base]; simp
  | case2 path up n hup hn =>
    rw [secureJoinLoopND, loop_eloop vfs root path up n hup hn]
    simp [hup, hn]
  | case3 path up n hup hn hc ih =>
    rw [secureJoinLoopND, loop_reset vfs root path up n hup hn hc]
    simp only [hup, hn, hc, dite_eq_ite, if_true, if_false, ite_true, ite_false]
    exact ih
  | case4 path up n hup hn hc e hstat hne ih =>
    rw [secureJoinLoopND, loop_notFound vfs root path up n e hup hn hc hstat hne]
    simp only [hup, hn, hc, hstat, hne, dite_eq_ite, if_true, if_false, ite_true, ite_false]
    exact ih
  | case5 path up n hup hn hc e hstat hne =>
    rw [secureJoinLoopND, loop_lstatErr vfs root path up n e hup hn hc hstat
      (by simpa using hne)]
    simp [hup, hn, hc, hstat, show IsNotExist e = false by simpa using hne]
  | case6 path up n hup hn hc fi hstat hsym ih =>
    rw [secureJoinLoopND, loop_nonSymlink vfs root path up n fi hup hn hc hstat hsym]
    simp only [hup, hn, hc, hstat, hsym, dite_eq_ite, if_true, if_false, ite_true, ite_false]
    exact ih
  | case7 path up n hup hn hc fi hstat hsym e hread =>
    rw [secureJoinLoopND, loop_readlinkErr vfs root path up n fi e hup hn hc hstat
      (by simpa using hsym) hread]
    simp [hup, hn, hc, hstat, hsym, hread]
  | case8 path up n hup hn hc fi hstat hsym dest hread habs hsc =>
    have hD : fi.isDir = false := hvfs _ fi hstat (by simpa using hsym)
    rw [hD] at hsc
    simp only [Bool.not_false, Bool.true_and] at hsc
    rw [secureJoinLoopND, loop_symlinkAbs vfs root path up n fi dest hup hn hc hstat
      (by simpa using hsym) hread habs]
    rw [hD]
    simp [hup, hn, hc, hstat, hsym, hread, habs, hsc]
  | case9 path up n hup hn hc fi hstat hsym dest hread habs hsc ih =>
    have hD : fi.isDir = false := hvfs _ fi hstat (by simpa using hsym)
    rw [hD] at hsc
    simp only [Bool.not_false, Bool.true_and] at hsc
    rw [secureJoinLoopND, loop_symlinkAbs vfs root path up n fi dest hup hn hc hstat
      (by simpa using hsym) hread habs]
    rw [hD]
    simp only [hup, hn, hc, hstat, hsym, hread, habs, hsc, Bool.not_false, Bool.true_and,
      dite_eq_ite, if_true, if_false, ite_true, ite_false]
    exact ih
  | case10 path up n hup hn hc fi hstat hsym dest hread habs ih =>
    rw [secureJoinLoopND, loop_symlinkRel vfs root path up n fi dest hup hn hc hstat
      (by simpa using hsym) hread (by simpa using habs)]
    simp only [hup, hn, hc, hstat, hsym, hread, habs, dite_eq_ite,
      if_true, if_false, ite_true, ite_false]
    exact ih

/-- A lookup capability whose entries never exist: `Lstat` always fails
with a not-found error and `Readlink` always fails. -/
def noFs : VFS where
  lstat _ := .error (.notExist 0)
  readlink _ := .error (.otherErr 0)

/-- A filesystem with a single entry: `/r/a` is a non-directory symlink
whose stored target is the absolute, `/r/`-prefixed string `/r/../../x`. -/
def scVfs : VFS where
  lstat q := if q = pstr "/r/a" then .ok ⟨true, false⟩ else .error (.notExist 0)
  readlink q := if q = pstr "/r/a" then .ok (pstr "/r/../../x") else .error (.otherErr 0)

/-- A filesystem with a single entry: `/r/a` is a directory symlink whose
target is the absolute path `/a`, producing an unbounded symlink cycle
under root `/r`. -/
def cycleVfs : VFS where
  lstat q := if q = pstr "/r/a" then .ok ⟨true, true⟩ else .error (.notExist 0)
  readlink q := if q = pstr "/r/a" then .ok (pstr "/a") else .error (.otherErr 0)

/-- Decimal digit helpers for the chain filesystems. -/
def decDigits (n : Nat) : List Char := Nat.toDigits 10 n

/-- Numeric value of a decimal digit string. -/
def digitsVal (l : List Char) : Nat :=
  l.foldl (fun a c => a * 10 + (c.toNat - 48)) 0

/-- A filesystem forming a finite symlink chain of length 254 under root
`/r`: the entries `/r/a0`, ..., `/r/a253` are non-directory symlinks,
`/r/ai` pointing at the absolute target `/a(i+1)` for `i < 253` and
`/r/a253` pointing at `/f`; every other path (in particular `/r/f`)
exists and is not a symlink. Resolving `a0` dereferences exactly 254
symlinks before reaching the non-symlink `/r/f`. -/
def chainVfs : VFS where
  lstat q :=
    if q.take 4 = pstr "/r/a" ∧ q.drop 4 = decDigits (digitsVal (q.drop 4)) ∧
        digitsVal (q.drop 4) ≤ 253 then
      .ok ⟨true, false⟩
    else .ok ⟨false, false⟩
  readlink q :=
    if digitsVal (q.drop 4) < 253 then
      .ok (sep :: 'a' :: decDigits (digitsVal (q.drop 4) + 1))
    else .ok (pstr "/f")

/-- Like `chainVfs` but with a chain of 300 symlinks `/r/a0` ...
`/r/a299`: each link along the walk is dereferenced exactly once, yet the
shared counter reaches the ceiling after 256 dereferences and resolution
fails. -/
def chain300Vfs : VFS where
  lstat q :=
    if q.take 4 = pstr "/r/a" ∧ q.drop 4 = decDigits (digitsVal (q.drop 4)) ∧
        digitsVal (q.drop 4) ≤ 299 then
      .ok ⟨true, false⟩
    else .ok ⟨false, false⟩
  readlink q :=
    if digitsVal (q.drop 4) < 299 then
      .ok (sep :: 'a' :: decDigits (digitsVal (q.drop 4) + 1))
    else .ok (pstr "/f")

/-- A lookup capability that always fails with an error outside the
not-found class. -/
def errVfs : VFS where
  lstat _ := .error (.otherErr 7)
  readlink _ := .error (.otherErr 8)

/-- Go `filepath.Join(a, b)` for non-empty components: concatenate with a
separator and clean. -/
def goJoin (a b : List Char) : List Char := clean (a ++ sep :: b)

theorem bool_shortCircuitCond (b x : Bool) :
    (!b && x) = true ↔ (b = false ∧ x = true) := by
  cases b <;> cases x <;> simp

/-- Resolving under `cycleVfs` dereferences the symlink 256 times and
fails with `ELOOP`; the recorded path is `root + "/" + remaining`, where
the remaining unconsumed path is the expanded `/a/`, not the original
`a`. -/
theorem cycleRun :
    SecureJoinVFS (pstr "/r") (pstr "a") cycleVfs =
      .error (.eloop (pstr "/r//a/")) := by
  exact secureJoinFuel_sound cycleVfs (pstr "/r") 1200 [] (pstr "a") 0 _
    (by set_option maxRecDepth 100000 in decide)

/-- Resolving `a0` under `chainVfs` follows the 254-link chain and
succeeds at the non-symlink `/r/f`. -/
theorem chainRun :
    SecureJoinVFS (pstr "/r") (pstr "a0") chainVfs = .ok (pstr "/r/f") := by
  exact secureJoinFuel_sound chainVfs (pstr "/r") 1200 [] (pstr "a0") 0 _
    (by set_option maxRecDepth 100000 in set_option maxHeartbeats 8000000 in decide)

/-- Resolving `a0` under `chain300Vfs` dereferences 256 distinct links —
one dereference per component — and fails with `ELOOP` at link `a256`. -/
theorem chain300Run :
    SecureJoinVFS (pstr "/r") (pstr "a0") chain300Vfs =
      .error (.eloop (pstr "/r//a256/")) := by
  exact secureJoinFuel_sound chain300Vfs (pstr "/r") 1200 [] (pstr "a0") 0 _
    (by set_option maxRecDepth 100000 in set_option maxHeartbeats 8000000 in decide)

/-- Resolving the output of `clean` against an empty remainder returns it
unchanged, for any lookup capability. -/
theorem clean_fixed_empty (vfs : VFS) (y : List Char) :
    SecureJoinVFS (clean y) [] vfs = .ok (clean y) := by
  show secureJoinLoop vfs (clean y) [] [] 0 = _
  rw [loop_base, show clean (sep :: ([] : List Char)) = [sep] from rfl,
    clean_append_sep (clean y) (clean_ne_nil y), clean_idem]

/-- C1 (counterexample): with the cleaned absolute root `/r`, resolving
`a` where `/r/a` is a non-directory symlink to `/r/../../x` takes the
absolute-symlink short circuit and returns `/x`, which is neither
prefixed by the cleaned root nor a descendant of the root: the claim's
assertion that the short-circuit result is always a descendant of root
is false. -/
theorem c1_escape_counterexample :
    SecureJoinVFS (pstr "/r") (pstr "a") scVfs = .ok (pstr "/x") ∧
    clean (pstr "/r") = pstr "/r" ∧
    (pstr "/r").isPrefixOf (pstr "/x") = false ∧
    (pstr "/r" ++ [sep]).isPrefixOf (pstr "/x") = false := by
  refine ⟨?_, by decide, by decide, by decide⟩
  exact secureJoinFuel_sound scVfs (pstr "/r") 10 [] (pstr "a") 0 _ (by decide)

/-- C1 (amended): for every absolute root, every successful resolution
either returns a path prefixed by the lexically cleaned root (all normal
exits), or takes the absolute-symlink short circuit and returns the
lexical cleaning of a target string that begins with `root + "/"`
before cleaning (and need not stay under root after cleaning). -/
theorem c1_result_scope (vfs : VFS) (root up res : List Char)
    (habs : isAbs root = true)
    (h : SecureJoinVFS root up vfs = .ok res) :
    (clean root).isPrefixOf res = true ∨
      ∃ dest, res = clean dest ∧ (root ++ [sep]).isPrefixOf dest = true := by
  rcases loop_ok_shape vfs root [] up 0 res h with ⟨x, rfl⟩ | hsc
  · exact Or.inl (cleanRoot_prefix_clean_append root x habs)
  · exact Or.inr hsc

/-- C1 (witness): the amended theorem applied at the trailing-slash root
`/safe/`, path `x`, on the empty filesystem: the result `/safe/x` is
prefixed by the cleaned root `/safe`. -/
theorem c1_result_scope_witness :
    (clean (pstr "/safe/")).isPrefixOf (pstr "/safe/x") = true ∨
      ∃ dest, pstr "/safe/x" = clean dest ∧
        (pstr "/safe/" ++ [sep]).isPrefixOf dest = true :=
  c1_result_scope noFs (pstr "/safe/") (pstr "x") (pstr "/safe/x") (by decide)
    (secureJoinFuel_sound noFs (pstr "/safe/") 10 [] (pstr "x") 0 _ (by decide))

/-- C2 (counterexample): with root `/r`, path `../x`, and no symlinks at
all, resolution clamps the leading `..` and returns `/r/x`, while the
lexical join of the root with the lexically cleaned untrusted path
(`Join("/r", Clean("../x")) = "/x"`) escapes the root: the two disagree,
so the claim's equation is false as stated. -/
theorem c2_join_counterexample :
    SecureJoinVFS (pstr "/r") (pstr "../x") noFs = .ok (pstr "/r/x") ∧
    goJoin (pstr "/r") (clean (pstr "../x")) = pstr "/x" ∧
    (pstr "/r/x" : List Char) ≠ pstr "/x" := by
  refine ⟨?_, by decide, by decide⟩
  exact secureJoinFuel_sound noFs (pstr "/r") 10 [] (pstr "../x") 0 _ (by decide)

/-- C2 (amended): when the lookup capability reports every examined path
as either not found or an existing non-symlink, resolution succeeds and
returns the clean of `root` concatenated with the root-anchored cleaning
of the untrusted path, `Clean(root ++ Clean("/" ++ untrustedPath))` —
the lexical join of `root` with the re-rooted cleaned untrusted path, so
excess `..` segments clamp at the root. -/
theorem c2_no_symlink_result (vfs : VFS) (root up : List Char)
    (hvfs : NoSymlinks vfs) :
    SecureJoinVFS root up vfs = .ok (clean (root ++ clean (sep :: up))) := by
  have h := loop_noSymlinks vfs root hvfs [] up 0 (by omega)
  simpa using h

/-- C2 (witness): the amended theorem applied at root `/r` and the
dot-laden path `a/./b/../c` on the empty filesystem. -/
theorem c2_no_symlink_result_witness :
    SecureJoinVFS (pstr "/r") (pstr "a/./b/../c") noFs =
      .ok (clean (pstr "/r" ++ clean (sep :: pstr "a/./b/../c"))) :=
  c2_no_symlink_result noFs (pstr "/r") (pstr "a/./b/../c")
    (fun _ => Or.inr ⟨.notExist 0, rfl, rfl⟩)

/-- C3: when the examined entry is an existing symlink with an absolute
stored target, then (a) if the entry is not a directory and the raw
target begins with `root + "/"`, the loop immediately returns the
lexically cleaned target as the final result, and (b) otherwise the
accumulated prefix is discarded and the target is prepended, with a
separator, to the unconsumed remainder before the loop continues. -/
theorem c3_absolute_target (vfs : VFS) (root path up : List Char) (n : Nat)
    (fi : FileInfo) (dest : List Char) (hup : up ≠ []) (hn : ¬ 255 < n)
    (hc : clean (sep :: (path ++ takeUntilSep up)) ≠ [sep])
    (hstat : vfs.lstat (clean (root ++ clean (sep :: (path ++ takeUntilSep up)))) = .ok fi)
    (hsym : fi.isSymlink = true)
    (hread : vfs.readlink (clean (root ++ clean (sep :: (path ++ takeUntilSep up)))) = .ok dest)
    (habs : isAbs dest = true) :
    (fi.isDir = false ∧ (root ++ [sep]).isPrefixOf dest = true →
      secureJoinLoop vfs root path up n = .ok (clean dest)) ∧
    (¬(fi.isDir = false ∧ (root ++ [sep]).isPrefixOf dest = true) →
      secureJoinLoop vfs root path up n =
        secureJoinLoop vfs root [] (dest ++ sep :: dropThroughSep up) (n + 1)) := by
  constructor
  · intro hcond
    rw [loop_symlinkAbs vfs root path up n fi dest hup hn hc hstat hsym hread habs,
      if_pos ((bool_shortCircuitCond fi.isDir _).mpr hcond)]
  · intro hneg
    rw [loop_symlinkAbs vfs root path up n fi dest hup hn hc hstat hsym hread habs,
      if_neg (fun hcond => hneg ((bool_shortCircuitCond fi.isDir _).mp hcond))]

/-- C3 (witness): the theorem applied at the `scVfs` state, where `/r/a`
is a non-directory symlink to the absolute `/r/`-prefixed `/r/../../x`. -/
theorem c3_absolute_target_witness :
    ((⟨true, false⟩ : FileInfo).isDir = false ∧
        (pstr "/r" ++ [sep]).isPrefixOf (pstr "/r/../../x") = true →
      secureJoinLoop scVfs (pstr "/r") [] (pstr "a") 0 =
        .ok (clean (pstr "/r/../../x"))) ∧
    (¬((⟨true, false⟩ : FileInfo).isDir = false ∧
        (pstr "/r" ++ [sep]).isPrefixOf (pstr "/r/../../x") = true) →
      secureJoinLoop scVfs (pstr "/r") [] (pstr "a") 0 =
        secureJoinLoop scVfs (pstr "/r") []
          (pstr "/r/../../x" ++ sep :: dropThroughSep (pstr "a")) 1) :=
  c3_absolute_target scVfs (pstr "/r") [] (pstr "a") 0 ⟨true, false⟩
    (pstr "/r/../../x") (by decide) (by decide) (by decide) (by decide) rfl
    (by decide) rfl

/-- C4: the dereference ceiling in action. Under `cycleVfs` the symlink
cycle forces 256 dereferences and resolution fails with the `ELOOP`
loop error; under `chainVfs` the chain of 254 symlinks ending at the
non-symlink `/r/f` resolves successfully; and under `chain300Vfs`, where
every component is dereferenced only once, the shared counter still
trips the ceiling at the 256th dereference — the count is per call, not
per component. -/
theorem c4_depth_ceiling :
    SecureJoinVFS (pstr "/r") (pstr "a") cycleVfs =
      .error (.eloop (pstr "/r//a/")) ∧
    SecureJoinVFS (pstr "/r") (pstr "a0") chainVfs = .ok (pstr "/r/f") ∧
    SecureJoinVFS (pstr "/r") (pstr "a0") chain300Vfs =
      .error (.eloop (pstr "/r//a256/")) :=
  ⟨cycleRun, chainRun, chain300Run⟩

/-- C5: for every root and every lookup capability, resolving
`/../../../x` gives exactly the same outcome as resolving `/x`: each
excess `..` collapses the scoped candidate to the bare root, which
silently resets the accumulated prefix and continues. -/
theorem c5_dotdot_clamp (vfs : VFS) (root : List Char) :
    SecureJoinVFS root (pstr "/../../../x") vfs =
      SecureJoinVFS root (pstr "/x") vfs := by
  have h1 : SecureJoinVFS root (pstr "/../../../x") vfs =
      secureJoinLoop vfs root [] (pstr "x") 0 := by
    show secureJoinLoop vfs root [] (pstr "/../../../x") 0 = _
    rw [loop_reset vfs root [] (pstr "/../../../x") 0 (by decide) (by simp) (by decide),
      show dropThroughSep (pstr "/../../../x") = pstr "../../../x" from by decide,
      loop_reset vfs root [] (pstr "../../../x") 0 (by decide) (by simp) (by decide),
      show dropThroughSep (pstr "../../../x") = pstr "../../x" from by decide,
      loop_reset vfs root [] (pstr "../../x") 0 (by decide) (by simp) (by decide),
      show dropThroughSep (pstr "../../x") = pstr "../x" from by decide,
      loop_reset vfs root [] (pstr "../x") 0 (by decide) (by simp) (by decide),
      show dropThroughSep (pstr "../x") = pstr "x" from by decide]
  have h2 : SecureJoinVFS root (pstr "/x") vfs =
      secureJoinLoop vfs root [] (pstr "x") 0 := by
    show secureJoinLoop vfs root [] (pstr "/x") 0 = _
    rw [loop_reset vfs root [] (pstr "/x") 0 (by decide) (by simp) (by decide),
      show dropThroughSep (pstr "/x") = pstr "x" from by decide]
  rw [h1, h2]

/-- C6: error handling of the lookup capability, in one statement:
(a) an `Lstat` error outside the not-found class aborts the loop and is
returned unchanged; (b) a `Readlink` error aborts the loop and is
returned unchanged; (c) a not-found `Lstat` error is no error: the loop
accepts the component and continues; (d) an existing non-symlink entry
is treated with exactly the same continuation as (c). -/
theorem c6_error_propagation :
    (∀ (vfs : VFS) (root path up : List Char) (n : Nat) (e : GoError),
      up ≠ [] → ¬ 255 < n →
      clean (sep :: (path ++ takeUntilSep up)) ≠ [sep] →
      vfs.lstat (clean (root ++ clean (sep :: (path ++ takeUntilSep up)))) = .error e →
      IsNotExist e = false →
      secureJoinLoop vfs root path up n = .error e) ∧
    (∀ (vfs : VFS) (root path up : List Char) (n : Nat) (fi : FileInfo) (e : GoError),
      up ≠ [] → ¬ 255 < n →
      clean (sep :: (path ++ takeUntilSep up)) ≠ [sep] →
      vfs.lstat (clean (root ++ clean (sep :: (path ++ takeUntilSep up)))) = .ok fi →
      fi.isSymlink = true →
      vfs.readlink (clean (root ++ clean (sep :: (path ++ takeUntilSep up)))) = .error e →
      secureJoinLoop vfs root path up n = .error e) ∧
    (∀ (vfs : VFS) (root path up : List Char) (n : Nat) (e : GoError),
      up ≠ [] → ¬ 255 < n →
      clean (sep :: (path ++ takeUntilSep up)) ≠ [sep] →
      vfs.lstat (clean (root ++ clean (sep :: (path ++ takeUntilSep up)))) = .error e →
      IsNotExist e = true →
      secureJoinLoop vfs root path up n =
        secureJoinLoop vfs root (path ++ takeUntilSep up ++ [sep]) (dropThroughSep up) n) ∧
    (∀ (vfs : VFS) (root path up : List Char) (n : Nat) (fi : FileInfo),
      up ≠ [] → ¬ 255 < n →
      clean (sep :: (path ++ takeUntilSep up)) ≠ [sep] →
      vfs.lstat (clean (root ++ clean (sep :: (path ++ takeUntilSep up)))) = .ok fi →
      fi.isSymlink = false →
      secureJoinLoop vfs root path up n =
        secureJoinLoop vfs root (path ++ takeUntilSep up ++ [sep]) (dropThroughSep up) n) :=
  ⟨fun vfs root path up n e hup hn hc hstat hne =>
      loop_lstatErr vfs root path up n e hup hn hc hstat hne,
    fun vfs root path up n fi e hup hn hc hstat hsym hread =>
      loop_readlinkErr vfs root path up n fi e hup hn hc hstat hsym hread,
    fun vfs root path up n e hup hn hc hstat hne =>
      loop_notFound vfs root path up n e hup hn hc hstat hne,
    fun vfs root path up n fi hup hn hc hstat hsym =>
      loop_nonSymlink vfs root path up n fi hup hn hc hstat hsym⟩

/-- C6 (witness): part (a) applied to a permission-style error under
`errVfs`, and part (c) applied to the empty filesystem, both at root
`/r` and path `a`. -/
theorem c6_error_propagation_witness :
    secureJoinLoop errVfs (pstr "/r") [] (pstr "a") 0 = .error (.otherErr 7) ∧
    secureJoinLoop noFs (pstr "/r") [] (pstr "a") 0 =
      secureJoinLoop noFs (pstr "/r") (pstr "a/") [] 0 :=
  ⟨c6_error_propagation.1 errVfs (pstr "/r") [] (pstr "a") 0 (.otherErr 7)
      (by decide) (by decide) (by decide) rfl rfl,
    c6_error_propagation.2.2.1 noFs (pstr "/r") [] (pstr "a") 0 (.notExist 0)
      (by decide) (by decide) (by decide) rfl rfl⟩

/-- C7 (counterexample): under `cycleVfs` with root `/r` and original
untrusted path `a`, the loop error's recorded path is `/r//a/` — root
joined with the remaining expanded path at the moment the ceiling was
exceeded — which differs from root joined with the original untrusted
path, `/r/a`: the error does not carry the original pair. -/
theorem c7_payload_counterexample :
    SecureJoinVFS (pstr "/r") (pstr "a") cycleVfs =
      .error (.eloop (pstr "/r//a/")) ∧
    pstr "/r//a/" ≠ pstr "/r" ++ sep :: pstr "a" :=
  ⟨cycleRun, by decide⟩

/-- C7 (amended): when the dereference ceiling is exceeded, the loop
error carries the root joined (with one separator) to the current
remaining unconsumed path — which reflects prior symlink expansion and
need not equal the caller's original untrusted path. -/
theorem c7_eloop_payload (vfs : VFS) (root path up : List Char) (n : Nat)
    (hup : up ≠ []) (hn : 255 < n) :
    secureJoinLoop vfs root path up n = .error (.eloop (root ++ sep :: up)) :=
  loop_eloop vfs root path up n hup hn

/-- C7 (witness): the amended theorem applied at a counter just past the
ceiling. -/
theorem c7_eloop_payload_witness :
    secureJoinLoop noFs (pstr "/r") [] (pstr "a") 256 =
      .error (.eloop (pstr "/r" ++ sep :: pstr "a")) :=
  c7_eloop_payload noFs (pstr "/r") [] (pstr "a") 256 (by decide) (by omega)

/-- C8: the resolver terminates on every root, untrusted path, and
lookup capability: the fuelled rendition of the loop completes with some
finite fuel and then computes exactly the total function's result. -/
theorem c8_termination (vfs : VFS) (root up : List Char) :
    ∃ fuel, secureJoinFuel vfs root fuel [] up 0 =
      some (SecureJoinVFS root up vfs) :=
  loop_fuel_complete vfs root [] up 0

/-- C9 (counterexample): with the empty root, resolving the empty path
returns `/`, while the lexically cleaned empty root is `.`: the claim's
"returns the lexically cleaned root" fails for the empty root. -/
theorem c9_empty_root_counterexample :
    SecureJoinVFS [] [] noFs = .ok [sep] ∧ clean [] = [dot] ∧
    ([sep] : List Char) ≠ [dot] := by
  refine ⟨?_, by decide, by decide⟩
  exact secureJoinFuel_sound noFs [] 2 [] [] 0 _ (by decide)

/-- C9 (amended): for every non-empty root, resolving an empty untrusted
path returns the lexically cleaned root without consulting the lookup
capability (the capability is arbitrary); and the result of any
successful call, resolved again with an empty remaining path, is
returned unchanged. -/
theorem c9_empty_path_idem (vfs vfs2 : VFS) (root up res : List Char)
    (hroot : root ≠ []) :
    SecureJoinVFS root [] vfs = .ok (clean root) ∧
    (SecureJoinVFS root up vfs = .ok res → SecureJoinVFS res [] vfs2 = .ok res) := by
  constructor
  · show secureJoinLoop vfs root [] [] 0 = _
    rw [loop_base, show clean (sep :: ([] : List Char)) = [sep] from rfl,
      clean_append_sep root hroot]
  · intro h
    rcases loop_ok_shape vfs root [] up 0 res h with ⟨x, rfl⟩ | ⟨dest, rfl, _⟩
    · exact clean_fixed_empty vfs2 _
    · exact clean_fixed_empty vfs2 _

/-- C9 (witness): the amended theorem applied at root `/r` and path `x`
on the empty filesystem. -/
theorem c9_empty_path_idem_witness :
    SecureJoinVFS (pstr "/r") [] noFs = .ok (clean (pstr "/r")) ∧
    (SecureJoinVFS (pstr "/r") (pstr "x") noFs = .ok (pstr "/r/x") →
      SecureJoinVFS (pstr "/r/x") [] noFs = .ok (pstr "/r/x")) :=
  c9_empty_path_idem noFs noFs (pstr "/r") (pstr "x") (pstr "/r/x") (by decide)

/-- C10: when the lookup capability never describes an entry as both a
symlink and a directory (as with the real `os.Lstat`, which describes
the link itself), the `IsDir` conjunct of the absolute-symlink short
circuit is redundant: `SecureJoinVFS` coincides with the variant whose
short circuit tests only the `root + "/"` raw-string test on the
target. -/
theorem c10_isdir_redundant (vfs : VFS) (root up : List Char)
    (hvfs : ∀ q fi, vfs.lstat q = .ok fi → fi.isSymlink = true → fi.isDir = false) :
    SecureJoinVFS root up vfs = SecureJoinVFSNoDirCheck root up vfs :=
  (loopND_eq_loop vfs root hvfs [] up 0).symm

/-- C10 (witness): the theorem applied to `scVfs`, whose only existing
entry is a non-directory symlink. -/
theorem c10_isdir_redundant_witness :
    SecureJoinVFS (pstr "/r") (pstr "a") scVfs =
      SecureJoinVFSNoDirCheck (pstr "/r") (pstr "a") scVfs :=
  c10_isdir_redundant scVfs (pstr "/r") (pstr "a") (by
    intro q fi hok hsym
    by_cases h : q = pstr "/r/a"
    · simp only [scVfs] at hok
      rw [if_pos h] at hok
      injection hok with h2
      rw [← h2]
    · simp only [scVfs] at hok
      rw [if_neg h] at hok
      cases hok)

end SecureJoin
